import Mathlib

/-!
Shallow embedding of the engineering core of the repository:
  * `src/lib/flagCache.ts`        — bounded LRU cache for flag icon components
  * `src/lib/backgroundContext.tsx` — localStorage-backed expiring background cache
  * `src/unnamed/part_001` (useDebounce.ts) — debounce hooks
  * `src/lib/__tests__/ipFallback.test.ts`  — timeout-guarded IP detection
  * `src/lib/identityData.ts`     — saved identity records

Conventions of the embedding:
  * JS `Map` is modelled as an association list in insertion order
    (oldest first); `Map.set` of an absent key appends at the end,
    `Map.delete` removes the entry with the key.
  * JS truthiness of strings: the only falsy string is the empty string,
    so `if (s)` on a string is modelled as `s ≠ ""`.
  * Asynchronous loads that are awaited to completion are modelled as
    pure functions from an oracle `env : String → Option V` (the dynamic
    import: `some` when the module exposes a function component for the
    key, `none` when the export is absent / not a function / the import
    throws).
-/

namespace FlagCache

/-- `MAX_CACHE_SIZE` from src/lib/flagCache.ts (line 14). -/
def MAX_CACHE_SIZE : Nat := 30

/-- `Map.get`: first entry with the given key (keys are unique in a JS Map). -/
def lookup {V : Type} (c : List (String × V)) (k : String) : Option V :=
  (c.find? (fun p => p.1 == k)).map (fun p => p.2)

/-- `Map.delete k`: remove the entry with key `k`. -/
def eraseKey {V : Type} (c : List (String × V)) (k : String) : List (String × V) :=
  c.filter (fun p => p.1 != k)

/-- Lines 56-62 of flagCache.ts: when the cache has reached
`MAX_CACHE_SIZE`, take the first (oldest) key via `keys().next().value`
and delete it — guarded by JS truthiness `if (oldestKey)`, so an
empty-string key would not be deleted. -/
def evictIfFull {V : Type} (c : List (String × V)) : List (String × V) :=
  if MAX_CACHE_SIZE ≤ c.length then
    match c with
    | [] => []
    | (k0, _) :: _ => if k0 = "" then c else eraseKey c k0
  else c

/-- Lines 57-65 of flagCache.ts: evict if at capacity, then
`flagCache.set(countryCode, FlagComponent)` (append, key absent). -/
def insertLoaded {V : Type} (c : List (String × V)) (k : String) (v : V) :
    List (String × V) :=
  evictIfFull c ++ [(k, v)]

/-- `loadFlagIcon` (lines 31-79 of flagCache.ts) run to completion with
no interleaved callers, so the pending-promise table starts and ends
empty and is omitted.  Returns the resolved value and the new cache:
  * cache hit: delete + re-set moves the entry to the most-recent end;
  * miss with successful import: evict-if-full then append;
  * miss with failed import / absent component: `null`, cache untouched. -/
def loadFlagIcon {V : Type} (env : String → Option V)
    (c : List (String × V)) (k : String) : Option V × List (String × V) :=
  match lookup c k with
  | some v => (some v, eraseKey c k ++ [(k, v)])
  | none =>
    match env k with
    | some v => (some v, insertLoaded c k v)
    | none => (none, c)

/-- Run a sequence of `loadFlagIcon` calls starting from the empty cache
(the module-level `flagCache` after `clearCache()`). -/
def runFlagLoads {V : Type} (env : String → Option V) (ops : List String) :
    List (String × V) :=
  ops.foldl (fun c k => (loadFlagIcon env c k).2) []

/-- `getCacheSize` (flagCache.ts line 105). -/
def getCacheSize {V : Type} (c : List (String × V)) : Nat := c.length

/-- `isCached` (flagCache.ts line 120). -/
def isCached {V : Type} (c : List (String × V)) (k : String) : Bool :=
  (lookup c k).isSome

/-- `getCachedCodes` (flagCache.ts line 127): keys in insertion order. -/
def getCachedCodes {V : Type} (c : List (String × V)) : List String :=
  c.map (fun p => p.1)

/-! ### Event-level model of the pending-promise table

`loadFlagIcon` with concurrent callers splits into a synchronous request
phase (lines 34-47 and 77: cache check, `loadingPromises` check,
registration of the new promise) and a settle phase (lines 50-75: the
async body resolving, inserting on success and removing the key from
`loadingPromises` in the `finally`).  Promises are identified by a
`Nat` id. -/

/-- Outcome of the synchronous phase of `loadFlagIcon`. -/
inductive ReqResult (V : Type) where
  | hit (v : V)
  | joined (pid : Nat)
  | started (pid : Nat)
deriving DecidableEq, Repr

/-- Module-level state: the value cache and the in-flight table. -/
structure FlagState (V : Type) where
  flagCache : List (String × V)
  loadingPromises : List (String × Nat)
deriving Repr

/-- Synchronous phase of `loadFlagIcon` (flagCache.ts lines 34-47, 77):
cache hit touches the entry; a pending load is returned as-is
(request coalescing); otherwise a fresh promise is registered. -/
def requestFlag {V : Type} (s : FlagState V) (k : String) (fresh : Nat) :
    ReqResult V × FlagState V :=
  match lookup s.flagCache k with
  | some v =>
    (ReqResult.hit v, { s with flagCache := eraseKey s.flagCache k ++ [(k, v)] })
  | none =>
    match lookup s.loadingPromises k with
    | some pid => (ReqResult.joined pid, s)
    | none =>
      (ReqResult.started fresh,
       { s with loadingPromises := s.loadingPromises ++ [(k, fresh)] })

/-- Settling of the load promise for `k` (flagCache.ts lines 50-75):
on success the value is inserted (with eviction), on failure the cache
is untouched; in both cases the `finally` removes `k` from
`loadingPromises`. -/
def settleFlag {V : Type} (s : FlagState V) (k : String) (outcome : Option V) :
    FlagState V :=
  { flagCache :=
      match outcome with
      | some v => insertLoaded s.flagCache k v
      | none => s.flagCache,
    loadingPromises := eraseKey s.loadingPromises k }

end FlagCache

namespace BackgroundCache

/-- `BG_CACHE_VERSION` (backgroundContext.tsx line 14). -/
def BG_CACHE_VERSION : String := "v1"

/-- `BG_EXPIRE_TIME` (backgroundContext.tsx line 15): 24 hours in ms. -/
def BG_EXPIRE_TIME : Int := 24 * 60 * 60 * 1000

/-- The `BackgroundCache` record (backgroundContext.tsx lines 17-21).
Timestamps are epoch milliseconds, modelled as `Int` so that a record
with a future timestamp has a negative age. -/
structure Record where
  url : String
  timestamp : Int
  version : String
deriving DecidableEq, Repr

/-- `isCacheValid` (backgroundContext.tsx lines 30-39): false for a null
record, false on version mismatch, otherwise `age < BG_EXPIRE_TIME`. -/
def isCacheValid (cache : Option Record) (now : Int) : Bool :=
  match cache with
  | none => false
  | some c =>
    if c.version ≠ BG_CACHE_VERSION then false
    else decide (now - c.timestamp < BG_EXPIRE_TIME)

/-- Contents of `localStorage` under `BG_CACHE_KEY`: absent, present but
not parseable as a `Record` (JSON.parse throws or the shape is wrong),
or a parseable record. -/
inductive Stored where
  | absent
  | malformed
  | record (c : Record)
deriving DecidableEq, Repr

/-- `getCachedBackground` (backgroundContext.tsx lines 44-68) with the
clock passed explicitly: returns the read result and the storage
afterwards.  Absent storage is left alone; a malformed or invalid
record is removed (`localStorage.removeItem`) and `null` is returned;
a valid record yields its URL with storage untouched. -/
def getCachedBackground (st : Stored) (now : Int) : Option String × Stored :=
  match st with
  | Stored.absent => (none, Stored.absent)
  | Stored.malformed => (none, Stored.absent)
  | Stored.record c =>
    if isCacheValid (some c) now then (some c.url, Stored.record c)
    else (none, Stored.absent)

/-- `setCachedBackground` (backgroundContext.tsx lines 73-85) when the
write succeeds: stores `{url, now, BG_CACHE_VERSION}`. -/
def setCachedBackground (url : String) (now : Int) : Stored :=
  Stored.record { url := url, timestamp := now, version := BG_CACHE_VERSION }

end BackgroundCache

namespace IpDetect

/-- `DEFAULT_COUNTRY` (ipFallback.test.ts line 21). -/
def DEFAULT_COUNTRY : String := "US"

/-- `DEFAULT_IP` (ipFallback.test.ts line 22): the "unreachable"
sentinel, literally "检测失败" (detection failed). -/
def DEFAULT_IP : String := "检测失败"

/-- `TIMEOUT_MS` (ipFallback.test.ts line 23). -/
def TIMEOUT_MS : Nat := 3000

/-- `IpDetectionResult` (ipFallback.test.ts lines 15-19). -/
structure IpDetectionResult where
  ip : String
  country : String
  isDefault : Bool
deriving DecidableEq, Repr

/-- What `response.json()` produces.  JS field truthiness: a missing,
null or empty-string field behaves identically under `data.ip || ...`
and `!data.ip`, so both are modelled as the empty string. -/
inductive JsonOutcome where
  | jsonRejects
  | fields (ip : String) (country : String)
deriving DecidableEq, Repr

/-- Behaviour of the raced fetch: the promise rejects, or it resolves at
time `t` (ms) with a body. -/
inductive FetchBehavior where
  | rejects
  | resolvesAt (t : Nat) (j : JsonOutcome)
deriving DecidableEq, Repr

/-- The fallback result produced by the `catch` branch
(ipFallback.test.ts lines 49-55). -/
def fallbackResult : IpDetectionResult :=
  { ip := DEFAULT_IP, country := DEFAULT_COUNTRY, isDefault := true }

/-- `detectIp` (ipFallback.test.ts lines 32-56): `Promise.race` of the
fetch against a timer that rejects at `timeoutMs`.  Event-loop
convention: a fetch resolving at `t ≥ timeoutMs` loses the race
(at the boundary the timer is taken to win).  A total function — the
caller always receives a result, never a rejection. -/
def detectIp (timeoutMs : Nat) (b : FetchBehavior) : IpDetectionResult :=
  match b with
  | FetchBehavior.rejects => fallbackResult
  | FetchBehavior.resolvesAt t j =>
    if timeoutMs ≤ t then fallbackResult
    else
      match j with
      | JsonOutcome.jsonRejects => fallbackResult
      | JsonOutcome.fields ip country =>
        { ip := if ip = "" then DEFAULT_IP else ip,
          country := if country = "" then DEFAULT_COUNTRY else country,
          isDefault := ip = "" || country = "" }

end IpDetect

namespace IdentityData

/-- `SavedIdentity` (identityData.ts lines 6-17). -/
structure SavedIdentity where
  id : String
  firstName : String
  lastName : String
  birthday : String
  phone : String
  password : String
  email : String
  countryCode : String
  countryName : String
  createdAt : Int
deriving DecidableEq, Repr

/-- The argument of `addIdentity`: a `SavedIdentity` without `id` and
`createdAt` (identityData.ts line 49). -/
structure IdentityInput where
  firstName : String
  lastName : String
  birthday : String
  phone : String
  password : String
  email : String
  countryCode : String
  countryName : String
deriving DecidableEq, Repr

/-- The generated id (identityData.ts line 53):
`identity_${Date.now()}_${random base-36 suffix}`; the clock value and
the random suffix are parameters of the embedding. -/
def makeIdentityId (now : Int) (rand : String) : String :=
  "identity_" ++ toString now ++ "_" ++ rand

/-- `addIdentity` (identityData.ts lines 49-59) over the parsed stored
list (`getSavedIdentities` normalises absent/corrupt storage to `[]`),
with the clock and random suffix explicit and the persisting write
succeeding.  `unshift` puts the new record at the front. -/
def addIdentity (store : List SavedIdentity) (input : IdentityInput)
    (now : Int) (rand : String) : SavedIdentity × List SavedIdentity :=
  let newIdentity : SavedIdentity :=
    { id := makeIdentityId now rand,
      firstName := input.firstName, lastName := input.lastName,
      birthday := input.birthday, phone := input.phone,
      password := input.password, email := input.email,
      countryCode := input.countryCode, countryName := input.countryName,
      createdAt := now }
  (newIdentity, newIdentity :: store)

/-- `isIdentitySaved` (identityData.ts lines 73-76). -/
def isIdentitySaved (store : List SavedIdentity) (email : String) : Bool :=
  store.any (fun item => item.email == email)

end IdentityData

namespace Debounce

/-!
Timed-event model of the debounce hooks in `src/unnamed/part_001`
(useDebounce.ts).  Time is `Nat` (ms, as under vitest fake timers).
An "update" at time `t` with value `v` is one execution of the hook's
effect after the `value` prop changed to `v`: it clears any pending
timer and schedules a commit of `v` at `t + delay` (lines 30-48).
The event-loop convention is that a timer whose deadline has been
reached fires before the next event is processed (a timer due exactly
at an event's time fires first).

The mount effect also schedules a timer, committing the initial value;
since `committed` already holds that value, its firing is an observable
no-op (React bails out on a `setState` to the current value) and it is
omitted: runs start with no pending timer.
-/

/-- State of `useDebounce`: the committed (`debouncedValue`) state and
the pending timer `(deadline, value)` held in `timerRef`. -/
structure DebounceState (T : Type) where
  committed : T
  timer : Option (Nat × T)

/-- Fire the pending timer if its deadline is ≤ the current time
(useDebounce.ts lines 37-39: the callback commits the closed-over
value). -/
def fireDue {T : Type} (s : DebounceState T) (t : Nat) : DebounceState T :=
  match s.timer with
  | some (ft, v) => if ft ≤ t then { committed := v, timer := none } else s
  | none => s

/-- One effect execution of `useDebounce` at time `t` with new value
`v` (lines 30-48): any timer already due has fired; the remaining
timer, if any, is cleared and replaced by a commit of `v` at `t + d`. -/
def debounceUpdate {T : Type} (d : Nat) (s : DebounceState T) (t : Nat)
    (v : T) : DebounceState T :=
  let s1 := fireDue s t
  { committed := s1.committed, timer := some (t + d, v) }

/-- Fold a list of updates `(time, value)` (times increasing) from a
given state. -/
def runFrom {T : Type} (d : Nat) (s : DebounceState T)
    (updates : List (Nat × T)) : DebounceState T :=
  updates.foldl (fun s u => debounceUpdate d s u.1 u.2) s

/-- The `debouncedValue` returned by `useDebounce` at time `t`, for a
hook mounted with value `v0` and fed `updates`: process the updates
that have happened by `t`, then fire any timer due by `t`. -/
def debouncedAt {T : Type} (d : Nat) (v0 : T) (updates : List (Nat × T))
    (t : Nat) : T :=
  (fireDue (runFrom d { committed := v0, timer := none }
      (updates.filter (fun u => u.1 ≤ t))) t).committed

/-- The value observable at time `t` when the consumer unmounts at time
`tt`: the cleanup (lines 42-47) clears the pending timer, so the value
is frozen at whatever it was at `tt`. -/
def debouncedAtTorn {T : Type} (d : Nat) (v0 : T)
    (updates : List (Nat × T)) (tt t : Nat) : T :=
  debouncedAt d v0 updates (min t tt)

/-- State of `useDebounceWithPending` (useDebounce.ts lines 99-131). -/
structure PendingState (T : Type) where
  debouncedValue : T
  isPending : Bool
  timer : Option (Nat × T)

/-- Fire the pending timer of `useDebounceWithPending` if due
(lines 117-120), including the effect re-run it triggers: the effect's
dependencies include `debouncedValue`, so a commit that changes it
re-runs the effect (lines 107-128), which — the value prop being equal
to the new `debouncedValue` — leaves `isPending` alone and schedules a
redundant timer one delay later committing the same value; that timer,
if also due, fires without changing `debouncedValue` (React bails out)
and triggers no further effect. -/
def fireDueP {T : Type} [DecidableEq T] (d : Nat) (s : PendingState T)
    (t : Nat) : PendingState T :=
  match s.timer with
  | none => s
  | some (ft, v) =>
    if ft ≤ t then
      if v = s.debouncedValue then
        { debouncedValue := s.debouncedValue, isPending := false, timer := none }
      else if ft + d ≤ t then
        { debouncedValue := v, isPending := false, timer := none }
      else
        { debouncedValue := v, isPending := false, timer := some (ft + d, v) }
    else s

/-- One effect execution of `useDebounceWithPending` at time `t` with
new value `v` (lines 107-128): clear the remaining timer, set
`isPending` when the value differs from the committed one, schedule the
commit at `t + d`. -/
def debounceUpdateP {T : Type} [DecidableEq T] (d : Nat)
    (s : PendingState T) (t : Nat) (v : T) : PendingState T :=
  let s1 := fireDueP d s t
  { debouncedValue := s1.debouncedValue,
    isPending := if v = s1.debouncedValue then s1.isPending else true,
    timer := some (t + d, v) }

/-- Fold updates through `useDebounceWithPending` from a given state. -/
def runFromP {T : Type} [DecidableEq T] (d : Nat) (s : PendingState T)
    (updates : List (Nat × T)) : PendingState T :=
  updates.foldl (fun s u => debounceUpdateP d s u.1 u.2) s

/-- The `debouncedValue` of `useDebounceWithPending` at time `t`. -/
def debouncedAtP {T : Type} [DecidableEq T] (d : Nat) (v0 : T)
    (updates : List (Nat × T)) (t : Nat) : T :=
  (fireDueP d (runFromP d { debouncedValue := v0, isPending := false, timer := none }
      (updates.filter (fun u => u.1 ≤ t))) t).debouncedValue

/-- `useDebounceWithPending` value at `t` when unmounted at `tt`
(cleanup at lines 122-127 cancels the pending timer). -/
def debouncedAtTornP {T : Type} [DecidableEq T] (d : Nat) (v0 : T)
    (updates : List (Nat × T)) (tt t : Nat) : T :=
  debouncedAtP d v0 updates (min t tt)

/-- A burst: successive updates are strictly increasing in time and
each arrives strictly before the previous update's deadline. -/
def isBurst {T : Type} (d : Nat) : List (Nat × T) → Bool
  | (t1, _) :: (t2, v2) :: rest =>
    (decide (t1 < t2) && decide (t2 < t1 + d)) && isBurst d ((t2, v2) :: rest)
  | _ => true

/-- Time of the first update (0 for an empty list). -/
def firstTime {T : Type} : List (Nat × T) → Nat
  | [] => 0
  | (t, _) :: _ => t

end Debounce

namespace FlagCache

/-- Environment for the concrete LRU scenario: every key loads
successfully, the component handle being the key itself. -/
def scenarioEnv : String → Option String := fun k => some k

/-- Key `ki` of the scenario. -/
def kk (n : Nat) : String := "k" ++ toString n

/-- Keys `ka .. kb` in order. -/
def ks (a b : Nat) : List String := (List.range (b + 1 - a)).map (fun i => kk (a + i))

/-- The cache after loading k1..k31 in order into an empty cache. -/
def scenario31 : List (String × String) := runFlagLoads scenarioEnv (ks 1 31)

/-- `scenario31` after re-loading k2 (a hit). -/
def scenario31touched : List (String × String) :=
  (loadFlagIcon scenarioEnv scenario31 "k2").2

/-- `scenario31touched` after loading the 32nd distinct key k32. -/
def scenario32 : List (String × String) :=
  (loadFlagIcon scenarioEnv scenario31touched "k32").2

/-- A concrete cache filled to capacity with 30 distinct keys. -/
def cache30 : List (String × String) := (ks 1 30).map (fun k => (k, k))

end FlagCache

namespace FlagCache

lemma lookup_cons_of_pos {V : Type} {q : String × V} {rest : List (String × V)}
    {k : String} (h : q.1 = k) : lookup (q :: rest) k = some q.2 := by
  unfold lookup
  rw [List.find?_cons_of_pos _ (by simpa using h)]
  rfl

lemma lookup_cons_of_neg {V : Type} {q : String × V} {rest : List (String × V)}
    {k : String} (h : q.1 ≠ k) : lookup (q :: rest) k = lookup rest k := by
  unfold lookup
  rw [List.find?_cons_of_neg _ (by simpa using h)]

lemma lookup_isSome_of_mem {V : Type} {c : List (String × V)} {k : String}
    {v : V} (h : (k, v) ∈ c) : (lookup c k).isSome = true := by
  induction c with
  | nil => cases h
  | cons q rest ih =>
    by_cases hq : q.1 = k
    · rw [lookup_cons_of_pos hq]; rfl
    · rw [lookup_cons_of_neg hq]
      cases List.mem_cons.mp h with
      | inl he => exact absurd (congrArg Prod.fst he.symm) hq
      | inr hm => exact ih hm

lemma lookup_head {V : Type} (k : String) (v : V) (rest : List (String × V)) :
    lookup ((k, v) :: rest) k = some v :=
  lookup_cons_of_pos rfl

lemma eraseKey_cons_of_eq {V : Type} {q : String × V} {k : String}
    (rest : List (String × V)) (h : q.1 = k) :
    eraseKey (q :: rest) k = eraseKey rest k := by
  simp [eraseKey, List.filter_cons, h]

lemma eraseKey_cons_of_ne {V : Type} {q : String × V} {k : String}
    (rest : List (String × V)) (h : q.1 ≠ k) :
    eraseKey (q :: rest) k = q :: eraseKey rest k := by
  simp [eraseKey, List.filter_cons, h]

lemma mem_eraseKey_of_mem {V : Type} {c : List (String × V)} {p : String × V}
    {k : String} (hmem : p ∈ c) (hne : p.1 ≠ k) : p ∈ eraseKey c k := by
  simp only [eraseKey, List.mem_filter]
  exact ⟨hmem, by simpa using hne⟩

lemma mem_of_mem_eraseKey {V : Type} {c : List (String × V)} {p : String × V}
    {k : String} (h : p ∈ eraseKey c k) : p ∈ c :=
  List.mem_of_mem_filter h

lemma key_ne_of_mem_eraseKey {V : Type} {c : List (String × V)}
    {p : String × V} {k : String} (h : p ∈ eraseKey c k) : p.1 ≠ k := by
  have := (List.mem_filter.mp h).2
  simpa using this

lemma eraseKey_length_le {V : Type} (c : List (String × V)) (k : String) :
    (eraseKey c k).length ≤ c.length :=
  List.length_filter_le _ _

lemma eraseKey_length_lt {V : Type} {c : List (String × V)} {k : String}
    {v : V} (h : lookup c k = some v) : (eraseKey c k).length < c.length := by
  induction c with
  | nil => simp [lookup] at h
  | cons q rest ih =>
    by_cases hq : q.1 = k
    · rw [eraseKey_cons_of_eq rest hq]
      calc (eraseKey rest k).length ≤ rest.length := eraseKey_length_le rest k
        _ < (q :: rest).length := by simp
    · rw [lookup_cons_of_neg hq] at h
      rw [eraseKey_cons_of_ne rest hq]
      simpa using ih h

lemma lookup_eraseKey_self {V : Type} (c : List (String × V)) (k : String) :
    lookup (eraseKey c k) k = none := by
  simp only [lookup, Option.map_eq_none']
  rw [List.find?_eq_none]
  intro p hp
  have := key_ne_of_mem_eraseKey hp
  simpa using this

lemma evictIfFull_of_not_full {V : Type} {c : List (String × V)}
    (h : ¬ MAX_CACHE_SIZE ≤ c.length) : evictIfFull c = c := by
  unfold evictIfFull
  rw [if_neg h]

lemma evictIfFull_cons_full {V : Type} {k0 : String} {v0 : V}
    {rest : List (String × V)} (h : MAX_CACHE_SIZE ≤ ((k0, v0) :: rest).length) :
    evictIfFull ((k0, v0) :: rest) =
      if k0 = "" then (k0, v0) :: rest else eraseKey ((k0, v0) :: rest) k0 := by
  unfold evictIfFull
  rw [if_pos h]

lemma mem_of_mem_evictIfFull {V : Type} {c : List (String × V)}
    {p : String × V} (h : p ∈ evictIfFull c) : p ∈ c := by
  by_cases hfull : MAX_CACHE_SIZE ≤ c.length
  · cases c with
    | nil => simp [evictIfFull] at h
    | cons q rest =>
      obtain ⟨k0, v0⟩ := q
      rw [evictIfFull_cons_full hfull] at h
      by_cases hk : k0 = ""
      · rwa [if_pos hk] at h
      · rw [if_neg hk] at h
        exact mem_of_mem_eraseKey h
  · rwa [evictIfFull_of_not_full hfull] at h

lemma lookup_isSome_iff_mem_keys {V : Type} (c : List (String × V))
    (k : String) : (lookup c k).isSome = true ↔ k ∈ c.map Prod.fst := by
  induction c with
  | nil => simp [lookup]
  | cons q rest ih =>
    by_cases hq : q.1 = k
    · simp [lookup_cons_of_pos hq, hq]
    · rw [lookup_cons_of_neg hq]
      simp only [List.map_cons, List.mem_cons]
      rw [ih]
      constructor
      · exact Or.inr
      · rintro (h | h)
        · exact absurd h.symm hq
        · exact h

lemma keys_eraseKey_sublist {V : Type} (c : List (String × V)) (k : String) :
    ((eraseKey c k).map Prod.fst).Sublist (c.map Prod.fst) :=
  List.Sublist.map Prod.fst (List.filter_sublist c)

end FlagCache

namespace FlagCache

/-- One `loadFlagIcon` call preserves the invariant: cache size within
`MAX_CACHE_SIZE` and every cached key nonempty. -/
lemma good_step {V : Type} (env : String → Option V)
    {c : List (String × V)} {k : String} (hk : k ≠ "")
    (hlen : c.length ≤ MAX_CACHE_SIZE) (hkeys : ∀ p ∈ c, p.1 ≠ "") :
    (loadFlagIcon env c k).2.length ≤ MAX_CACHE_SIZE ∧
      ∀ p ∈ (loadFlagIcon env c k).2, p.1 ≠ "" := by
  unfold loadFlagIcon
  cases hc : lookup c k with
  | some v =>
    constructor
    · have h1 : (eraseKey c k).length < c.length := eraseKey_length_lt hc
      simp only [List.length_append, List.length_cons, List.length_nil]
      omega
    · intro p hp
      rcases List.mem_append.mp hp with hp | hp
      · exact hkeys p (mem_of_mem_eraseKey hp)
      · have : p = (k, v) := by simpa using hp
        rw [this]
        exact hk
  | none =>
    cases he : env k with
    | none => exact ⟨hlen, hkeys⟩
    | some v =>
      constructor
      · unfold insertLoaded
        simp only [List.length_append, List.length_cons, List.length_nil]
        by_cases hfull : MAX_CACHE_SIZE ≤ c.length
        · cases c with
          | nil => simp [MAX_CACHE_SIZE] at hfull
          | cons q rest =>
            obtain ⟨k0, v0⟩ := q
            rw [evictIfFull_cons_full hfull]
            have hk0 : k0 ≠ "" := hkeys (k0, v0) (List.mem_cons_self _ _)
            rw [if_neg hk0]
            have h1 : (eraseKey ((k0, v0) :: rest) k0).length <
                ((k0, v0) :: rest).length :=
              eraseKey_length_lt (lookup_head k0 v0 rest)
            omega
        · rw [evictIfFull_of_not_full hfull]
          omega
      · intro p hp
        unfold insertLoaded at hp
        rcases List.mem_append.mp hp with hp | hp
        · exact hkeys p (mem_of_mem_evictIfFull hp)
        · have : p = (k, v) := by simpa using hp
          rw [this]
          exact hk

/-- The invariant holds along any run from a state satisfying it. -/
lemma good_runFrom {V : Type} (env : String → Option V) :
    ∀ (ops : List String) (c : List (String × V)),
      (∀ k ∈ ops, k ≠ "") → c.length ≤ MAX_CACHE_SIZE →
      (∀ p ∈ c, p.1 ≠ "") →
      (ops.foldl (fun c k => (loadFlagIcon env c k).2) c).length ≤ MAX_CACHE_SIZE ∧
        ∀ p ∈ ops.foldl (fun c k => (loadFlagIcon env c k).2) c, p.1 ≠ "" := by
  intro ops
  induction ops with
  | nil => intro c _ hlen hkeys; exact ⟨hlen, hkeys⟩
  | cons k rest ih =>
    intro c hops hlen hkeys
    have hk : k ≠ "" := hops k (List.mem_cons_self _ _)
    have hstep := good_step env hk hlen hkeys
    exact ih _ (fun k' hk' => hops k' (List.mem_cons_of_mem _ hk')) hstep.1 hstep.2

/-- With unique keys, evicting by the head key drops exactly the head. -/
lemma eraseKey_head_of_nodup {V : Type} {k0 : String} {v0 : V}
    {rest : List (String × V)}
    (hnd : (((k0, v0) :: rest).map Prod.fst).Nodup) :
    eraseKey ((k0, v0) :: rest) k0 = rest := by
  have hnotin : k0 ∉ rest.map Prod.fst :=
    (List.nodup_cons.mp (by simpa using hnd)).1
  have hstep : eraseKey ((k0, v0) :: rest) k0 = eraseKey rest k0 :=
    eraseKey_cons_of_eq rest rfl
  rw [hstep]
  unfold eraseKey
  rw [List.filter_eq_self]
  intro p hp
  have hne : p.1 ≠ k0 := by
    intro he
    exact hnotin (he ▸ List.mem_map_of_mem Prod.fst hp)
  simpa using hne

end FlagCache

namespace FlagCache

/-- C6: for any key whose load has once succeeded (so it is in the
cache), a subsequent get-or-load returns the identical cached value for
every loader environment — so no new load is consulted — and re-inserts
the entry at the most-recently-used end of the cache. -/
theorem flagCache_hit_no_io {V : Type} (env : String → Option V)
    (c : List (String × V)) (k : String) (v : V) (h : lookup c k = some v) :
    loadFlagIcon env c k = (some v, eraseKey c k ++ [(k, v)]) := by
  unfold loadFlagIcon
  rw [h]

/-- Witness for C6 at a concrete cache, with an environment that could
never load anything. -/
theorem flagCache_hit_no_io_witness :
    loadFlagIcon (fun _ => (none : Option String)) [("US", "f")] "US" =
      (some "f", [("US", "f")]) :=
  (flagCache_hit_no_io (fun _ => (none : Option String)) [("US", "f")] "US" "f"
    (by decide)).trans (by decide)

/-- C8: a failed load (import throws / component absent or not a
function) returns `null` and leaves the cache exactly as it was; in the
event-level model, settling with failure also leaves the cache
untouched and removes the key from the pending table. -/
theorem flagCache_failed_load_no_insert :
    (∀ (V : Type) (env : String → Option V) (c : List (String × V)) (k : String),
      lookup c k = none → env k = none → loadFlagIcon env c k = (none, c))
    ∧ (∀ (V : Type) (s : FlagState V) (k : String),
      (settleFlag s k none).flagCache = s.flagCache ∧
        lookup (settleFlag s k none).loadingPromises k = none) := by
  constructor
  · intro V env c k h1 h2
    unfold loadFlagIcon
    rw [h1, h2]
  · intro V s k
    exact ⟨rfl, lookup_eraseKey_self s.loadingPromises k⟩

/-- Witness for C8 at a concrete cache and pending table. -/
theorem flagCache_failed_load_no_insert_witness :
    loadFlagIcon (fun _ => (none : Option String)) [("CN", "g")] "US" =
      (none, [("CN", "g")])
    ∧ (settleFlag (⟨[("CN", "g")], [("US", 3)]⟩ : FlagState String) "US"
        none).flagCache = [("CN", "g")]
    ∧ lookup (settleFlag (⟨[("CN", "g")], [("US", 3)]⟩ : FlagState String) "US"
        none).loadingPromises "US" = none :=
  ⟨flagCache_failed_load_no_insert.1 String (fun _ => none) [("CN", "g")] "US"
      (by decide) rfl,
   (flagCache_failed_load_no_insert.2 String ⟨[("CN", "g")], [("US", 3)]⟩ "US").1,
   (flagCache_failed_load_no_insert.2 String ⟨[("CN", "g")], [("US", 3)]⟩ "US").2⟩

/-- C7: request coalescing and the single-flight invariant.  A request
for a key that is uncached but already loading returns the identical
pending promise and changes nothing; settling (success or failure)
removes the key from the pending table; and both phases preserve
uniqueness of pending keys (at most one in-flight load per key). -/
theorem flagCache_single_flight :
    (∀ (V : Type) (s : FlagState V) (k : String) (pid fresh : Nat),
      lookup s.flagCache k = none → lookup s.loadingPromises k = some pid →
      requestFlag s k fresh = (ReqResult.joined pid, s))
    ∧ (∀ (V : Type) (s : FlagState V) (k : String) (outcome : Option V),
      lookup (settleFlag s k outcome).loadingPromises k = none)
    ∧ (∀ (V : Type) (s : FlagState V) (k : String) (fresh : Nat),
      (s.loadingPromises.map Prod.fst).Nodup →
      ((requestFlag s k fresh).2.loadingPromises.map Prod.fst).Nodup)
    ∧ (∀ (V : Type) (s : FlagState V) (k : String) (outcome : Option V),
      (s.loadingPromises.map Prod.fst).Nodup →
      ((settleFlag s k outcome).loadingPromises.map Prod.fst).Nodup) := by
  refine ⟨?_, ?_, ?_, ?_⟩
  · intro V s k pid fresh h1 h2
    unfold requestFlag
    rw [h1, h2]
  · intro V s k outcome
    exact lookup_eraseKey_self s.loadingPromises k
  · intro V s k fresh hnd
    unfold requestFlag
    cases h1 : lookup s.flagCache k with
    | some v => exact hnd
    | none =>
      cases h2 : lookup s.loadingPromises k with
      | some pid => exact hnd
      | none =>
        have hnotin : k ∉ s.loadingPromises.map Prod.fst := by
          intro hmem
          have := (lookup_isSome_iff_mem_keys s.loadingPromises k).mpr hmem
          rw [h2] at this
          cases this
        simp only [List.map_append]
        refine List.Nodup.append hnd (List.nodup_singleton k) ?_
        intro a ha hb
        have : a = k := by simpa using hb
        exact hnotin (this ▸ ha)
  · intro V s k outcome hnd
    exact List.Sublist.nodup (keys_eraseKey_sublist s.loadingPromises k) hnd

/-- Witness for C7 at concrete states. -/
theorem flagCache_single_flight_witness :
    requestFlag (⟨[], [("US", 7)]⟩ : FlagState String) "US" 9 =
      (ReqResult.joined 7, ⟨[], [("US", 7)]⟩)
    ∧ lookup (settleFlag (⟨[], [("US", 7)]⟩ : FlagState String) "US"
        (some "f")).loadingPromises "US" = none
    ∧ ((requestFlag (⟨[], [("CN", 1)]⟩ : FlagState String) "US"
        2).2.loadingPromises.map Prod.fst).Nodup
    ∧ ((settleFlag (⟨[], [("CN", 1), ("US", 2)]⟩ : FlagState String) "US"
        none).loadingPromises.map Prod.fst).Nodup :=
  ⟨flagCache_single_flight.1 String ⟨[], [("US", 7)]⟩ "US" 7 9 rfl (by decide),
   flagCache_single_flight.2.1 String ⟨[], [("US", 7)]⟩ "US" (some "f"),
   flagCache_single_flight.2.2.1 String ⟨[], [("CN", 1)]⟩ "US" 2 (by decide),
   flagCache_single_flight.2.2.2 String ⟨[], [("CN", 1), ("US", 2)]⟩ "US" none
     (by decide)⟩

end FlagCache

namespace FlagCache

lemma getCachedCodes_eq_keys {V : Type} (c : List (String × V)) :
    getCachedCodes c = c.map Prod.fst := rfl

/-- C5: over every sequence of get-or-load operations on real country
codes (nonempty keys) the cache size never exceeds `MAX_CACHE_SIZE`;
and a successful load into a full cache with unique, nonempty keys
evicts exactly the least-recently-touched entry (the head) before
appending the new one. -/
theorem flagCache_capacity :
    (∀ (V : Type) (env : String → Option V) (ops : List String),
      (∀ k ∈ ops, k ≠ "") →
      getCacheSize (runFlagLoads env ops) ≤ MAX_CACHE_SIZE)
    ∧ (∀ (V : Type) (env : String → Option V) (c : List (String × V))
        (k : String) (v : V),
      MAX_CACHE_SIZE ≤ c.length → (getCachedCodes c).Nodup →
      (∀ p ∈ c, p.1 ≠ "") → lookup c k = none → env k = some v →
      (loadFlagIcon env c k).2 = c.tail ++ [(k, v)]) := by
  constructor
  · intro V env ops hops
    exact (good_runFrom env ops [] hops (by simp [MAX_CACHE_SIZE]) (by simp)).1
  · intro V env c k v hfull hnd hkeys hlk henv
    unfold loadFlagIcon
    rw [hlk, henv]
    unfold insertLoaded
    cases c with
    | nil => simp [MAX_CACHE_SIZE] at hfull
    | cons q rest =>
      obtain ⟨k0, v0⟩ := q
      rw [evictIfFull_cons_full hfull]
      have hk0 : k0 ≠ "" := hkeys (k0, v0) (List.mem_cons_self _ _)
      rw [if_neg hk0]
      rw [getCachedCodes_eq_keys] at hnd
      rw [eraseKey_head_of_nodup hnd]
      rfl

/-- Witness for C5: a two-load run stays within capacity, and a load
into the full 30-entry cache `cache30` evicts exactly its head. -/
theorem flagCache_capacity_witness :
    getCacheSize (runFlagLoads scenarioEnv ["US", "CN"]) ≤ MAX_CACHE_SIZE
    ∧ (loadFlagIcon scenarioEnv cache30 "k31").2 =
        cache30.tail ++ [("k31", "k31")] :=
  ⟨flagCache_capacity.1 String scenarioEnv ["US", "CN"] (by decide),
   flagCache_capacity.2 String scenarioEnv cache30 "k31" "k31"
     (by decide) (by decide) (by decide) (by decide) rfl⟩

/-- C4: the concrete capacity-30 scenario — loading k1..k31 evicts k1
and leaves k2..k31 (size 30); re-loading k2 promotes it to
most-recently-used; loading k32 then evicts k3 and not k2 — together
with the general recency property: a get-touch on a cached key protects
it from the eviction caused by the next load of any other key. -/
theorem flagCache_lru_recency :
    getCachedCodes scenario31 = ks 2 31
    ∧ getCacheSize scenario31 = 30
    ∧ getCachedCodes scenario31touched = ks 3 31 ++ ["k2"]
    ∧ isCached scenario32 "k3" = false
    ∧ isCached scenario32 "k2" = true
    ∧ isCached scenario32 "k32" = true
    ∧ getCacheSize scenario32 = 30
    ∧ (∀ (V : Type) (env : String → Option V) (c : List (String × V))
        (k k' : String),
      (lookup c k).isSome = true → k' ≠ k →
      isCached (loadFlagIcon env (loadFlagIcon env c k).2 k').2 k = true) := by
  refine ⟨by decide, by decide, by decide, by decide, by decide, by decide,
    by decide, ?_⟩
  intro V env c k k' hs hne
  obtain ⟨v, hv⟩ : ∃ v, lookup c k = some v := by
    cases h : lookup c k with
    | none => rw [h] at hs; cases hs
    | some v => exact ⟨v, rfl⟩
  have h1 : (loadFlagIcon env c k).2 = eraseKey c k ++ [(k, v)] := by
    unfold loadFlagIcon
    rw [hv]
  rw [h1]
  have hmem1 : (k, v) ∈ eraseKey c k ++ [(k, v)] := by simp
  unfold isCached
  cases h2 : lookup (eraseKey c k ++ [(k, v)]) k' with
  | some w =>
    have h3 : (loadFlagIcon env (eraseKey c k ++ [(k, v)]) k').2 =
        eraseKey (eraseKey c k ++ [(k, v)]) k' ++ [(k', w)] := by
      unfold loadFlagIcon
      rw [h2]
    rw [h3]
    apply lookup_isSome_of_mem
    exact List.mem_append_left _
      (mem_eraseKey_of_mem hmem1 (Ne.symm hne))
  | none =>
    cases h4 : env k' with
    | none =>
      have h5 : (loadFlagIcon env (eraseKey c k ++ [(k, v)]) k').2 =
          eraseKey c k ++ [(k, v)] := by
        unfold loadFlagIcon
        rw [h2, h4]
      rw [h5]
      exact lookup_isSome_of_mem hmem1
    | some w =>
      have h6 : (loadFlagIcon env (eraseKey c k ++ [(k, v)]) k').2 =
          evictIfFull (eraseKey c k ++ [(k, v)]) ++ [(k', w)] := by
        unfold loadFlagIcon
        rw [h2, h4]
        rfl
      rw [h6]
      have hmem2 : (k, v) ∈ evictIfFull (eraseKey c k ++ [(k, v)]) := by
        by_cases hfull : MAX_CACHE_SIZE ≤ (eraseKey c k ++ [(k, v)]).length
        · cases he : eraseKey c k with
          | nil =>
            rw [he] at hfull
            simp [MAX_CACHE_SIZE] at hfull
          | cons q rest =>
            obtain ⟨k0, v0⟩ := q
            rw [he] at hfull
            simp only [List.cons_append] at hfull ⊢
            rw [evictIfFull_cons_full hfull]
            have hk0k : k0 ≠ k := by
              have hq : ((k0, v0) : String × V) ∈ eraseKey c k := by
                rw [he]
                exact List.mem_cons_self _ _
              exact key_ne_of_mem_eraseKey hq
            by_cases hk0 : k0 = ""
            · rw [if_pos hk0]
              simp
            · rw [if_neg hk0]
              apply mem_eraseKey_of_mem _ (Ne.symm hk0k)
              simp
        · rw [evictIfFull_of_not_full hfull]
          exact hmem1
      exact lookup_isSome_of_mem (List.mem_append_left _ hmem2)

/-- Witness for the general recency conjunct of C4. -/
theorem flagCache_lru_recency_witness :
    isCached (loadFlagIcon scenarioEnv
      (loadFlagIcon scenarioEnv [("k1", "a"), ("k2", "b")] "k1").2 "k9").2
      "k1" = true :=
  flagCache_lru_recency.2.2.2.2.2.2.2 String scenarioEnv
    [("k1", "a"), ("k2", "b")] "k1" "k9" (by decide) (by decide)

end FlagCache

namespace BackgroundCache

/-- C2: `isCacheValid` is false for a null record, false on a schema
version mismatch, false whenever `now - timestamp ≥ TTL` (so that
age = TTL is already invalid), true when the version matches and
`now - timestamp < TTL`, and in particular true for a matching record
with a future timestamp (negative age). -/
theorem isCacheValid_spec :
    (∀ now : Int, isCacheValid none now = false)
    ∧ (∀ (c : Record) (now : Int), c.version ≠ BG_CACHE_VERSION →
        isCacheValid (some c) now = false)
    ∧ (∀ (c : Record) (now : Int), BG_EXPIRE_TIME ≤ now - c.timestamp →
        isCacheValid (some c) now = false)
    ∧ (∀ (c : Record) (now : Int), c.version = BG_CACHE_VERSION →
        now - c.timestamp < BG_EXPIRE_TIME → isCacheValid (some c) now = true)
    ∧ (∀ (c : Record) (now : Int), c.version = BG_CACHE_VERSION →
        now < c.timestamp → isCacheValid (some c) now = true) := by
  refine ⟨fun now => rfl, ?_, ?_, ?_, ?_⟩
  · intro c now hv
    simp [isCacheValid, hv]
  · intro c now hage
    simp only [isCacheValid]
    by_cases hv : c.version = BG_CACHE_VERSION
    · rw [if_neg (by simp [hv])]
      simpa using not_lt.mpr hage
    · rw [if_pos (by simpa using hv)]
  · intro c now hv hage
    simp [isCacheValid, hv, hage]
  · intro c now hv hfut
    have hage : now - c.timestamp < BG_EXPIRE_TIME := by
      have h0 : now - c.timestamp < 0 := by omega
      have h1 : (0 : Int) < BG_EXPIRE_TIME := by decide
      omega
    simp [isCacheValid, hv, hage]

/-- Witness for C2 at concrete records: version mismatch, exactly-TTL
age, fresh record, and a future-dated record. -/
theorem isCacheValid_spec_witness :
    isCacheValid none 0 = false
    ∧ isCacheValid (some ⟨"u", 0, "v0"⟩) 0 = false
    ∧ isCacheValid (some ⟨"u", 0, "v1"⟩) 86400000 = false
    ∧ isCacheValid (some ⟨"u", 0, "v1"⟩) 86399999 = true
    ∧ isCacheValid (some ⟨"u", 100, "v1"⟩) 50 = true :=
  ⟨isCacheValid_spec.1 0,
   isCacheValid_spec.2.1 ⟨"u", 0, "v0"⟩ 0 (by decide),
   isCacheValid_spec.2.2.1 ⟨"u", 0, "v1"⟩ 86400000 (by decide),
   isCacheValid_spec.2.2.2.1 ⟨"u", 0, "v1"⟩ 86399999 rfl (by decide),
   isCacheValid_spec.2.2.2.2 ⟨"u", 100, "v1"⟩ 50 rfl (by decide)⟩

/-- C9: the read returns the stored URL exactly for a present,
parseable, version-matching record younger than the TTL; in every other
case it returns empty and removes any stored record (malformed data is
a silent miss).  Includes the concrete scenario: a record written at T
with version "v1" reads back at T+23h, is gone at T+25h, and a "v0"
record reads empty immediately. -/
theorem getCachedBackground_spec :
    (∀ now : Int, getCachedBackground Stored.absent now = (none, Stored.absent))
    ∧ (∀ now : Int,
        getCachedBackground Stored.malformed now = (none, Stored.absent))
    ∧ (∀ (c : Record) (now : Int), c.version = BG_CACHE_VERSION →
        now - c.timestamp < BG_EXPIRE_TIME →
        getCachedBackground (Stored.record c) now = (some c.url, Stored.record c))
    ∧ (∀ (c : Record) (now : Int), isCacheValid (some c) now = false →
        getCachedBackground (Stored.record c) now = (none, Stored.absent))
    ∧ (∀ (url : String) (T : Int),
        getCachedBackground (setCachedBackground url T) (T + 23 * 60 * 60 * 1000) =
          (some url, setCachedBackground url T))
    ∧ (∀ (url : String) (T : Int),
        getCachedBackground (setCachedBackground url T) (T + 25 * 60 * 60 * 1000) =
          (none, Stored.absent))
    ∧ (∀ (url : String) (T : Int),
        getCachedBackground (Stored.record ⟨url, T, "v0"⟩) T =
          (none, Stored.absent)) := by
  have hvalid : ∀ (c : Record) (now : Int), c.version = BG_CACHE_VERSION →
      now - c.timestamp < BG_EXPIRE_TIME →
      getCachedBackground (Stored.record c) now = (some c.url, Stored.record c) := by
    intro c now hv hage
    simp [getCachedBackground, isCacheValid, hv, hage]
  refine ⟨fun now => rfl, fun now => rfl, hvalid, ?_, ?_, ?_, ?_⟩
  · intro c now hinv
    simp [getCachedBackground, hinv]
  · intro url T
    exact hvalid ⟨url, T, BG_CACHE_VERSION⟩ (T + 23 * 60 * 60 * 1000) rfl
      (by simp only [BG_EXPIRE_TIME]; omega)
  · intro url T
    have hinv : isCacheValid (some ⟨url, T, BG_CACHE_VERSION⟩)
        (T + 25 * 60 * 60 * 1000) = false := by
      simp only [isCacheValid]
      rw [if_neg (by simp)]
      simp only [decide_eq_false_iff_not, not_lt, BG_EXPIRE_TIME]
      omega
    simp only [setCachedBackground, getCachedBackground]
    rw [hinv]
    simp
  · intro url T
    have hinv : isCacheValid (some ⟨url, T, "v0"⟩) T = false := by
      simp [isCacheValid, BG_CACHE_VERSION]
    simp [getCachedBackground, hinv]

/-- Witness for C9 at a concrete record and clock values. -/
theorem getCachedBackground_spec_witness :
    getCachedBackground Stored.absent 5 = (none, Stored.absent)
    ∧ getCachedBackground Stored.malformed 5 = (none, Stored.absent)
    ∧ getCachedBackground (Stored.record ⟨"u", 0, "v1"⟩) 1000 =
        (some "u", Stored.record ⟨"u", 0, "v1"⟩)
    ∧ getCachedBackground (Stored.record ⟨"u", 0, "v1"⟩) 90000000 =
        (none, Stored.absent)
    ∧ getCachedBackground (setCachedBackground "u" 0) 82800000 =
        (some "u", setCachedBackground "u" 0)
    ∧ getCachedBackground (setCachedBackground "u" 0) 90000000 =
        (none, Stored.absent)
    ∧ getCachedBackground (Stored.record ⟨"u", 0, "v0"⟩) 0 =
        (none, Stored.absent) :=
  ⟨getCachedBackground_spec.1 5,
   getCachedBackground_spec.2.1 5,
   getCachedBackground_spec.2.2.1 ⟨"u", 0, "v1"⟩ 1000 rfl (by decide),
   getCachedBackground_spec.2.2.2.1 ⟨"u", 0, "v1"⟩ 90000000 (by decide),
   getCachedBackground_spec.2.2.2.2.1 "u" 0,
   getCachedBackground_spec.2.2.2.2.2.1 "u" 0,
   getCachedBackground_spec.2.2.2.2.2.2 "u" 0⟩

end BackgroundCache

namespace IpDetect

/-- C1 counterexample: a partial payload with the ip present and the
country missing does NOT yield the default "unreachable" sentinel for
the ip — `detectIp` keeps the observed ip (`data.ip || DEFAULT_IP`) and
substitutes the default only for the missing country, contrary to the
claim that every partial payload yields the sentinel ip and default
country. -/
theorem detectIp_partial_keeps_observed :
    detectIp TIMEOUT_MS (FetchBehavior.resolvesAt 0 (JsonOutcome.fields "1.2.3.4" "")) =
      { ip := "1.2.3.4", country := "US", isDefault := true }
    ∧ (detectIp TIMEOUT_MS
        (FetchBehavior.resolvesAt 0 (JsonOutcome.fields "1.2.3.4" ""))).ip ≠
      DEFAULT_IP := by
  constructor
  · decide
  · decide

/-- C1 amended: `detectIp` is total (always resolves).  Fetch rejection,
timeout (resolution at or after `TIMEOUT_MS`), body-parse failure and a
fully empty payload all yield the full default result (sentinel ip,
default country "US", flagged default).  A partial payload keeps each
observed field and substitutes the default only for each missing field,
still flagged default; a well-formed payload yields the observed ip and
country flagged non-default. -/
theorem detectIp_fallback :
    (detectIp TIMEOUT_MS FetchBehavior.rejects = fallbackResult)
    ∧ (∀ (t : Nat) (j : JsonOutcome), TIMEOUT_MS ≤ t →
        detectIp TIMEOUT_MS (FetchBehavior.resolvesAt t j) = fallbackResult)
    ∧ (∀ t : Nat, t < TIMEOUT_MS →
        detectIp TIMEOUT_MS (FetchBehavior.resolvesAt t JsonOutcome.jsonRejects) =
          fallbackResult)
    ∧ (∀ t : Nat, t < TIMEOUT_MS →
        detectIp TIMEOUT_MS (FetchBehavior.resolvesAt t (JsonOutcome.fields "" "")) =
          fallbackResult)
    ∧ (∀ (t : Nat) (ip : String), t < TIMEOUT_MS → ip ≠ "" →
        detectIp TIMEOUT_MS (FetchBehavior.resolvesAt t (JsonOutcome.fields ip "")) =
          { ip := ip, country := DEFAULT_COUNTRY, isDefault := true })
    ∧ (∀ (t : Nat) (country : String), t < TIMEOUT_MS → country ≠ "" →
        detectIp TIMEOUT_MS (FetchBehavior.resolvesAt t (JsonOutcome.fields "" country)) =
          { ip := DEFAULT_IP, country := country, isDefault := true })
    ∧ (∀ (t : Nat) (ip country : String), t < TIMEOUT_MS → ip ≠ "" →
        country ≠ "" →
        detectIp TIMEOUT_MS (FetchBehavior.resolvesAt t (JsonOutcome.fields ip country)) =
          { ip := ip, country := country, isDefault := false }) := by
  refine ⟨rfl, ?_, ?_, ?_, ?_, ?_, ?_⟩
  · intro t j ht
    simp [detectIp, ht]
  · intro t ht
    simp [detectIp, Nat.not_le.mpr ht]
  · intro t ht
    simp [detectIp, Nat.not_le.mpr ht, fallbackResult]
  · intro t ip ht hip
    simp [detectIp, Nat.not_le.mpr ht, hip]
  · intro t country ht hc
    simp [detectIp, Nat.not_le.mpr ht, hc]
  · intro t ip country ht hip hc
    simp [detectIp, Nat.not_le.mpr ht, hip, hc]

/-- Witness for the amended C1 at concrete behaviours. -/
theorem detectIp_fallback_witness :
    detectIp TIMEOUT_MS FetchBehavior.rejects = fallbackResult
    ∧ detectIp TIMEOUT_MS (FetchBehavior.resolvesAt 5000
        (JsonOutcome.fields "1.2.3.4" "CN")) = fallbackResult
    ∧ detectIp TIMEOUT_MS (FetchBehavior.resolvesAt 10 JsonOutcome.jsonRejects) =
        fallbackResult
    ∧ detectIp TIMEOUT_MS (FetchBehavior.resolvesAt 10 (JsonOutcome.fields "" "")) =
        fallbackResult
    ∧ detectIp TIMEOUT_MS (FetchBehavior.resolvesAt 10
        (JsonOutcome.fields "1.2.3.4" "")) =
        { ip := "1.2.3.4", country := DEFAULT_COUNTRY, isDefault := true }
    ∧ detectIp TIMEOUT_MS (FetchBehavior.resolvesAt 10
        (JsonOutcome.fields "" "CN")) =
        { ip := DEFAULT_IP, country := "CN", isDefault := true }
    ∧ detectIp TIMEOUT_MS (FetchBehavior.resolvesAt 10
        (JsonOutcome.fields "1.2.3.4" "CN")) =
        { ip := "1.2.3.4", country := "CN", isDefault := false } :=
  ⟨detectIp_fallback.1,
   detectIp_fallback.2.1 5000 (JsonOutcome.fields "1.2.3.4" "CN") (by decide),
   detectIp_fallback.2.2.1 10 (by decide),
   detectIp_fallback.2.2.2.1 10 (by decide),
   detectIp_fallback.2.2.2.2.1 10 "1.2.3.4" (by decide) (by decide),
   detectIp_fallback.2.2.2.2.2.1 10 "CN" (by decide) (by decide),
   detectIp_fallback.2.2.2.2.2.2 10 "1.2.3.4" "CN" (by decide) (by decide)
     (by decide)⟩

end IpDetect

namespace IdentityData

/-- C10: `addIdentity` puts the new record — carrying the generated id,
the creation time and the input's fields — at the front of the stored
list, leaving every previously saved record unchanged behind it, and
`isIdentitySaved` subsequently reports the new record's email as
saved. -/
theorem addIdentity_prepends (store : List SavedIdentity)
    (input : IdentityInput) (now : Int) (rand : String) :
    (addIdentity store input now rand).2 =
      (addIdentity store input now rand).1 :: store
    ∧ (addIdentity store input now rand).1.id = makeIdentityId now rand
    ∧ (addIdentity store input now rand).1.createdAt = now
    ∧ (addIdentity store input now rand).1.email = input.email
    ∧ isIdentitySaved (addIdentity store input now rand).2 input.email = true := by
  refine ⟨rfl, rfl, rfl, rfl, ?_⟩
  simp [addIdentity, isIdentitySaved]

end IdentityData

namespace Debounce

lemma burst_tail {T : Type} {d : Nat} {x : Nat × T} {l : List (Nat × T)}
    (h : isBurst d (x :: l) = true) : isBurst d l = true := by
  cases l with
  | nil => rfl
  | cons y l' =>
    obtain ⟨t1, v1⟩ := x
    obtain ⟨t2, v2⟩ := y
    simp only [isBurst, Bool.and_eq_true] at h
    exact h.2

lemma burst_head {T : Type} {d : Nat} {x : Nat × T} {l : List (Nat × T)}
    (h : isBurst d (x :: l) = true) (hne : l ≠ []) :
    x.1 < firstTime l ∧ firstTime l < x.1 + d := by
  cases l with
  | nil => exact absurd rfl hne
  | cons y l' =>
    obtain ⟨t1, v1⟩ := x
    obtain ⟨t2, v2⟩ := y
    simp only [isBurst, Bool.and_eq_true, decide_eq_true_eq] at h
    exact ⟨h.1.1, h.1.2⟩

lemma burst_lt_all {T : Type} {d : Nat} :
    ∀ {l : List (Nat × T)} {x : Nat × T}, isBurst d (x :: l) = true →
      ∀ u ∈ l, x.1 < u.1 := by
  intro l
  induction l with
  | nil => intro x _ u hu; cases hu
  | cons y l' ih =>
    intro x h u hu
    have hxy : x.1 < y.1 := (burst_head h (by simp)).1
    cases List.mem_cons.mp hu with
    | inl he => rw [he]; exact hxy
    | inr hm => exact lt_trans hxy (ih (burst_tail h) u hm)

lemma burst_append_left {T : Type} {d : Nat} :
    ∀ {l1 l2 : List (Nat × T)}, isBurst d (l1 ++ l2) = true →
      isBurst d l1 = true := by
  intro l1
  induction l1 with
  | nil => intro l2 _; rfl
  | cons x rest ih =>
    intro l2 h
    cases rest with
    | nil => rfl
    | cons y rest' =>
      obtain ⟨t1, v1⟩ := x
      obtain ⟨t2, v2⟩ := y
      simp only [List.cons_append, isBurst, Bool.and_eq_true] at h ⊢
      exact ⟨h.1, ih (by simpa using h.2)⟩

lemma burst_adjacent {T : Type} {d : Nat} {a b : Nat × T} :
    ∀ {l1 l2 : List (Nat × T)}, isBurst d (l1 ++ a :: b :: l2) = true →
      a.1 < b.1 ∧ b.1 < a.1 + d := by
  intro l1
  induction l1 with
  | nil =>
    intro l2 h
    obtain ⟨t1, v1⟩ := a
    obtain ⟨t2, v2⟩ := b
    simp only [List.nil_append, isBurst, Bool.and_eq_true, decide_eq_true_eq] at h
    exact ⟨h.1.1, h.1.2⟩
  | cons x rest ih =>
    intro l2 h
    exact ih (burst_tail (by simpa using h))

lemma burst_all_lt_last {T : Type} {d : Nat} {tn : Nat} {vn : T} :
    ∀ {us : List (Nat × T)}, isBurst d (us ++ [(tn, vn)]) = true →
      ∀ u ∈ us, u.1 < tn := by
  intro us
  induction us with
  | nil => intro _ u hu; cases hu
  | cons x rest ih =>
    intro h u hu
    cases List.mem_cons.mp hu with
    | inl he =>
      rw [he]
      have := burst_lt_all (by simpa using h) (tn, vn) (by simp)
      exact this
    | inr hm => exact ih (burst_tail (by simpa using h)) u hm

lemma filter_burst_split {T : Type} {d : Nat} (t : Nat) :
    ∀ {l : List (Nat × T)}, isBurst d l = true →
      ∃ l2, l = l.filter (fun u => u.1 ≤ t) ++ l2 ∧ ∀ u ∈ l2, ¬ u.1 ≤ t := by
  intro l
  induction l with
  | nil => intro _; exact ⟨[], by simp, by simp⟩
  | cons x rest ih =>
    intro h
    by_cases hx : x.1 ≤ t
    · obtain ⟨l2, hsplit, hl2⟩ := ih (burst_tail h)
      refine ⟨l2, ?_, hl2⟩
      rw [List.filter_cons_of_pos (by simpa using hx), List.cons_append]
      exact congrArg (x :: ·) hsplit
    · refine ⟨x :: rest, ?_, ?_⟩
      · rw [List.filter_cons_of_neg (by simpa using hx)]
        have : rest.filter (fun u => decide (u.1 ≤ t)) = [] := by
          rw [List.filter_eq_nil_iff]
          intro u hu
          have hlt : x.1 < u.1 := burst_lt_all h u hu
          simp only [decide_eq_true_eq]
          omega
        rw [this]
        simp
      · intro u hu
        cases List.mem_cons.mp hu with
        | inl he => rw [he]; exact hx
        | inr hm =>
          have hlt : x.1 < u.1 := burst_lt_all h u hm
          omega

lemma fireDue_eq_of_later {T : Type} {s : DebounceState T} {t : Nat}
    (h : ∀ ft v, s.timer = some (ft, v) → t < ft) : fireDue s t = s := by
  cases hst : s.timer with
  | none => simp [fireDue, hst]
  | some p =>
    obtain ⟨ft, v⟩ := p
    have hlt := h ft v hst
    simp only [fireDue, hst]
    rw [if_neg (by omega)]

lemma run_burst {T : Type} {d : Nat} {tn : Nat} {vn : T} :
    ∀ {us : List (Nat × T)} (s : DebounceState T),
      isBurst d (us ++ [(tn, vn)]) = true →
      (∀ ft v, s.timer = some (ft, v) → firstTime (us ++ [(tn, vn)]) < ft) →
      runFrom d s (us ++ [(tn, vn)]) =
        { committed := s.committed, timer := some (tn + d, vn) } := by
  intro us
  induction us with
  | nil =>
    intro s _ hcond
    show debounceUpdate d s tn vn = _
    unfold debounceUpdate
    rw [fireDue_eq_of_later (by simpa [firstTime] using hcond)]
  | cons x rest ih =>
    intro s hb hcond
    obtain ⟨t1, v1⟩ := x
    simp only [List.cons_append] at hb ⊢
    show runFrom d (debounceUpdate d s t1 v1) (rest ++ [(tn, vn)]) = _
    have hs1 : debounceUpdate d s t1 v1 =
        { committed := s.committed, timer := some (t1 + d, v1) } := by
      unfold debounceUpdate
      rw [fireDue_eq_of_later (by simpa [firstTime] using hcond)]
    rw [hs1]
    have hne : rest ++ [(tn, vn)] ≠ [] := by simp
    have hhead := burst_head hb hne
    have := ih { committed := s.committed, timer := some (t1 + d, v1) }
      (burst_tail hb) ?_
    · exact this
    · intro ft v heq
      have h1 : ft = t1 + d := by
        injection heq with h2
        exact congrArg Prod.fst h2.symm
      rw [h1]
      exact hhead.2

end Debounce

namespace Debounce

lemma fireDueP_eq_of_later {T : Type} [DecidableEq T] {d : Nat}
    {s : PendingState T} {t : Nat}
    (h : ∀ ft v, s.timer = some (ft, v) → t < ft) : fireDueP d s t = s := by
  cases hst : s.timer with
  | none => simp [fireDueP, hst]
  | some p =>
    obtain ⟨ft, v⟩ := p
    have hlt := h ft v hst
    simp only [fireDueP, hst]
    rw [if_neg (by omega)]

lemma run_burstP {T : Type} [DecidableEq T] {d : Nat} {tn : Nat} {vn : T} :
    ∀ {us : List (Nat × T)} (s : PendingState T),
      isBurst d (us ++ [(tn, vn)]) = true →
      (∀ ft v, s.timer = some (ft, v) → firstTime (us ++ [(tn, vn)]) < ft) →
      ∃ b, runFromP d s (us ++ [(tn, vn)]) =
        { debouncedValue := s.debouncedValue, isPending := b,
          timer := some (tn + d, vn) } := by
  intro us
  induction us with
  | nil =>
    intro s _ hcond
    refine ⟨if vn = s.debouncedValue then s.isPending else true, ?_⟩
    show debounceUpdateP d s tn vn = _
    unfold debounceUpdateP
    rw [fireDueP_eq_of_later (by simpa [firstTime] using hcond)]
  | cons x rest ih =>
    intro s hb hcond
    obtain ⟨t1, v1⟩ := x
    simp only [List.cons_append] at hb ⊢
    show ∃ b, runFromP d (debounceUpdateP d s t1 v1) (rest ++ [(tn, vn)]) = _
    have hs1 : debounceUpdateP d s t1 v1 =
        { debouncedValue := s.debouncedValue,
          isPending := if v1 = s.debouncedValue then s.isPending else true,
          timer := some (t1 + d, v1) } := by
      unfold debounceUpdateP
      rw [fireDueP_eq_of_later (by simpa [firstTime] using hcond)]
    rw [hs1]
    have hne : rest ++ [(tn, vn)] ≠ [] := by simp
    have hhead := burst_head hb hne
    have hcond2 : ∀ ft (v : T),
        (some (t1 + d, v1) : Option (Nat × T)) = some (ft, v) →
        firstTime (rest ++ [(tn, vn)]) < ft := by
      intro ft v heq
      have h1 : ft = t1 + d := by
        injection heq with h2
        exact congrArg Prod.fst h2.symm
      rw [h1]
      exact hhead.2
    obtain ⟨b, hrun⟩ := ih
      { debouncedValue := s.debouncedValue,
        isPending := if v1 = s.debouncedValue then s.isPending else true,
        timer := some (t1 + d, v1) }
      (burst_tail hb) hcond2
    exact ⟨b, hrun⟩

lemma debouncedAt_before {T : Type} {d : Nat} {v0 : T} {us : List (Nat × T)}
    {tn : Nat} {vn : T} (hb : isBurst d (us ++ [(tn, vn)]) = true)
    {t : Nat} (ht : t < tn + d) :
    debouncedAt d v0 (us ++ [(tn, vn)]) t = v0 := by
  obtain ⟨l2, hsplit, hl2⟩ := filter_burst_split t hb
  unfold debouncedAt
  rcases List.eq_nil_or_concat ((us ++ [(tn, vn)]).filter (fun u => u.1 ≤ t))
    with hf | ⟨us', p, hf⟩
  · rw [hf]
    simp [runFrom, fireDue]
  · obtain ⟨ti, vi⟩ := p
    rw [List.concat_eq_append] at hf
    rw [hf] at hsplit ⊢
    rw [List.append_assoc] at hsplit
    have hbf : isBurst d (us' ++ [(ti, vi)]) = true := by
      rw [hsplit] at hb
      rw [← List.append_assoc] at hb
      exact burst_append_left hb
    have hrun := run_burst
      { committed := v0, timer := (none : Option (Nat × T)) } hbf
      (by intro ft v heq; cases heq)
    rw [hrun]
    have hti : t < ti + d := by
      cases hl2e : l2 with
      | nil =>
        rw [hl2e, List.append_nil] at hsplit
        have hlast : ((us ++ [(tn, vn)]).getLast?) = some (tn, vn) :=
          List.getLast?_concat _
        rw [hsplit] at hlast
        rw [List.getLast?_concat] at hlast
        have hpe : (ti, vi) = (tn, vn) := by injection hlast
        have hteq : ti = tn := congrArg Prod.fst hpe
        omega
      | cons u l2' =>
        have hu : ¬ u.1 ≤ t := hl2 u (by rw [hl2e]; simp)
        have hbn : isBurst d (us' ++ (ti, vi) :: u :: l2') = true := by
          rw [hl2e] at hsplit
          rw [hsplit] at hb
          simpa using hb
        have hadj : (ti, vi).1 < u.1 ∧ u.1 < (ti, vi).1 + d :=
          burst_adjacent hbn
        simp only at hadj
        omega
    simp only [fireDue]
    rw [if_neg (by omega)]

lemma debouncedAt_from {T : Type} {d : Nat} {v0 : T} {us : List (Nat × T)}
    {tn : Nat} {vn : T} (hb : isBurst d (us ++ [(tn, vn)]) = true)
    {t : Nat} (ht : tn + d ≤ t) :
    debouncedAt d v0 (us ++ [(tn, vn)]) t = vn := by
  unfold debouncedAt
  have hfe : (us ++ [(tn, vn)]).filter (fun u => u.1 ≤ t) = us ++ [(tn, vn)] := by
    rw [List.filter_eq_self]
    intro u hu
    simp only [decide_eq_true_eq]
    rcases List.mem_append.mp hu with hm | hm
    · have := burst_all_lt_last hb u hm
      omega
    · have : u = (tn, vn) := by simpa using hm
      rw [this]
      simp only
      omega
  rw [hfe]
  rw [run_burst { committed := v0, timer := (none : Option (Nat × T)) }
    hb (by intro ft v heq; cases heq)]
  simp only [fireDue]
  rw [if_pos ht]

lemma debouncedAtP_before {T : Type} [DecidableEq T] {d : Nat} {v0 : T}
    {us : List (Nat × T)} {tn : Nat} {vn : T}
    (hb : isBurst d (us ++ [(tn, vn)]) = true) {t : Nat} (ht : t < tn + d) :
    debouncedAtP d v0 (us ++ [(tn, vn)]) t = v0 := by
  obtain ⟨l2, hsplit, hl2⟩ := filter_burst_split t hb
  unfold debouncedAtP
  rcases List.eq_nil_or_concat ((us ++ [(tn, vn)]).filter (fun u => u.1 ≤ t))
    with hf | ⟨us', p, hf⟩
  · rw [hf]
    simp [runFromP, fireDueP]
  · obtain ⟨ti, vi⟩ := p
    rw [List.concat_eq_append] at hf
    rw [hf] at hsplit ⊢
    rw [List.append_assoc] at hsplit
    have hbf : isBurst d (us' ++ [(ti, vi)]) = true := by
      rw [hsplit] at hb
      rw [← List.append_assoc] at hb
      exact burst_append_left hb
    obtain ⟨b, hrun⟩ := run_burstP
      { debouncedValue := v0, isPending := false,
        timer := (none : Option (Nat × T)) } hbf
      (by intro ft v heq; cases heq)
    rw [hrun]
    have hti : t < ti + d := by
      cases hl2e : l2 with
      | nil =>
        rw [hl2e, List.append_nil] at hsplit
        have hlast : ((us ++ [(tn, vn)]).getLast?) = some (tn, vn) :=
          List.getLast?_concat _
        rw [hsplit] at hlast
        rw [List.getLast?_concat] at hlast
        have hpe : (ti, vi) = (tn, vn) := by injection hlast
        have hteq : ti = tn := congrArg Prod.fst hpe
        omega
      | cons u l2' =>
        have hu : ¬ u.1 ≤ t := hl2 u (by rw [hl2e]; simp)
        have hbn : isBurst d (us' ++ (ti, vi) :: u :: l2') = true := by
          rw [hl2e] at hsplit
          rw [hsplit] at hb
          simpa using hb
        have hadj : (ti, vi).1 < u.1 ∧ u.1 < (ti, vi).1 + d :=
          burst_adjacent hbn
        simp only at hadj
        omega
    simp only [fireDueP]
    rw [if_neg (by omega)]

lemma debouncedAtP_from {T : Type} [DecidableEq T] {d : Nat} {v0 : T}
    {us : List (Nat × T)} {tn : Nat} {vn : T}
    (hb : isBurst d (us ++ [(tn, vn)]) = true) {t : Nat} (ht : tn + d ≤ t) :
    debouncedAtP d v0 (us ++ [(tn, vn)]) t = vn := by
  unfold debouncedAtP
  have hfe : (us ++ [(tn, vn)]).filter (fun u => u.1 ≤ t) = us ++ [(tn, vn)] := by
    rw [List.filter_eq_self]
    intro u hu
    simp only [decide_eq_true_eq]
    rcases List.mem_append.mp hu with hm | hm
    · have := burst_all_lt_last hb u hm
      omega
    · have : u = (tn, vn) := by simpa using hm
      rw [this]
      simp only
      omega
  rw [hfe]
  obtain ⟨b, hrun⟩ := run_burstP
    { debouncedValue := v0, isPending := false,
      timer := (none : Option (Nat × T)) } hb
    (by intro ft v heq; cases heq)
  rw [hrun]
  simp only [fireDueP]
  rw [if_pos ht]
  by_cases hv : vn = v0
  · rw [if_pos hv]
    exact hv.symm
  · rw [if_neg hv]
    by_cases h2 : tn + d + d ≤ t
    · rw [if_pos h2]
    · rw [if_neg h2]

end Debounce

namespace Debounce

/-- C3: for a burst of updates faster than the delay ending at
`(tn, vn)`, both `useDebounce` and `useDebounceWithPending` keep the
initially committed value until `tn + d`, commit exactly the last value
`vn` at `tn + d` (a single transition of the debounced output), and an
unmount before `tn + d` cancels the pending timer so the output never
changes after teardown. -/
theorem useDebounce_burst_commit (T : Type) [DecidableEq T] (d : Nat)
    (v0 : T) (us : List (Nat × T)) (tn : Nat) (vn : T)
    (hb : isBurst d (us ++ [(tn, vn)]) = true) :
    (∀ t, t < tn + d → debouncedAt d v0 (us ++ [(tn, vn)]) t = v0)
    ∧ (∀ t, tn + d ≤ t → debouncedAt d v0 (us ++ [(tn, vn)]) t = vn)
    ∧ (∀ tt t, tt < tn + d → debouncedAtTorn d v0 (us ++ [(tn, vn)]) tt t = v0)
    ∧ (∀ t, t < tn + d → debouncedAtP d v0 (us ++ [(tn, vn)]) t = v0)
    ∧ (∀ t, tn + d ≤ t → debouncedAtP d v0 (us ++ [(tn, vn)]) t = vn)
    ∧ (∀ tt t, tt < tn + d →
        debouncedAtTornP d v0 (us ++ [(tn, vn)]) tt t = v0) := by
  refine ⟨fun t ht => debouncedAt_before hb ht,
    fun t ht => debouncedAt_from hb ht, ?_,
    fun t ht => debouncedAtP_before hb ht,
    fun t ht => debouncedAtP_from hb ht, ?_⟩
  · intro tt t htt
    unfold debouncedAtTorn
    exact debouncedAt_before hb (lt_of_le_of_lt (min_le_right t tt) htt)
  · intro tt t htt
    unfold debouncedAtTornP
    exact debouncedAtP_before hb (lt_of_le_of_lt (min_le_right t tt) htt)

/-- Witness for C3: a two-update burst (values 1 then 2 at times 0 and
5, delay 10): the output is still the initial 0 at time 14, is 2 from
time 15 on, and stays 0 forever when unmounted at time 12 — for both
hooks. -/
theorem useDebounce_burst_commit_witness :
    debouncedAt 10 0 [(0, 1), (5, 2)] 14 = 0
    ∧ debouncedAt 10 0 [(0, 1), (5, 2)] 15 = 2
    ∧ debouncedAtTorn 10 0 [(0, 1), (5, 2)] 12 100 = 0
    ∧ debouncedAtP 10 0 [(0, 1), (5, 2)] 14 = 0
    ∧ debouncedAtP 10 0 [(0, 1), (5, 2)] 15 = 2
    ∧ debouncedAtTornP 10 0 [(0, 1), (5, 2)] 12 100 = 0 := by
  have h := useDebounce_burst_commit Nat 10 0 [(0, 1)] 5 2 (by decide)
  exact ⟨h.1 14 (by decide), h.2.1 15 (by decide), h.2.2.1 12 100 (by decide),
    h.2.2.2.1 14 (by decide), h.2.2.2.2.1 15 (by decide),
    h.2.2.2.2.2 12 100 (by decide)⟩

end Debounce
